import Mathlib

/-!
Shallow embedding of the `rust_voxels_game` core (fixed-point arithmetic,
color quantization, voxel world lookup and grid ray traversal), together
with theorems settling the specification claims about it.

Machine integers are modelled as `Int`/`Nat` with explicit wrapping where
the Rust code can overflow (release-mode semantics: arithmetic overflow
wraps; division and remainder by zero, and `i64::MIN % -1`, are runtime
errors and are modelled as `Option` results).
-/

/-- Reinterpret an unbounded integer as a signed 64-bit two's-complement
value, i.e. reduce modulo `2^64` into `[-2^63, 2^63)`.  This models the
result of Rust release-mode wrapping `i64` arithmetic and of `as i64`
casts from a wider intermediate. -/
def wrap64 (n : Int) : Int :=
  (n + 9223372036854775808) % 18446744073709551616 - 9223372036854775808

/-- `u64` / `usize` reinterpretation of an integer: reduce modulo `2^64`
into `[0, 2^64)`, as a natural number.  Models `as usize` casts. -/
def toU64 (n : Int) : Nat :=
  (n % 18446744073709551616).toNat

/-- `Fix64` from `src/fixed.rs`: a 64-bit signed fixed-point number with
24 fractional bits, represented by its raw bit pattern (an `i64`). -/
structure Fix64 where
  bits : Int
deriving DecidableEq

namespace Fix64

/-- `Fix64::FRAC_BITS` -/
def FRAC_BITS : Nat := 24

/-- `Fix64::from_bits` -/
def from_bits (v : Int) : Fix64 := ⟨v⟩

/-- `Fix64::as_bits` -/
def as_bits (a : Fix64) : Int := a.bits

/-- `Fix64::from_int`: `v << FRAC_BITS` (shifted-out bits are dropped). -/
def from_int (v : Int) : Fix64 := ⟨wrap64 (v * 16777216)⟩

/-- `Fix64::from_rat`: `((num as i128) << 24) / denom as i128`, then cast
back to `i64`.  The `i128` division truncates toward zero.  Only ever
called with a nonzero denominator in the source. -/
def from_rat (num denom : Int) : Fix64 :=
  ⟨wrap64 (Int.tdiv (num * 16777216) denom)⟩

/-- `impl Add for Fix64`: addition of the raw bits. -/
def add (a b : Fix64) : Fix64 := ⟨wrap64 (a.bits + b.bits)⟩

/-- `impl Sub for Fix64`: subtraction of the raw bits. -/
def sub (a b : Fix64) : Fix64 := ⟨wrap64 (a.bits - b.bits)⟩

/-- `impl Neg for Fix64`: negation of the raw bits. -/
def neg (a : Fix64) : Fix64 := ⟨wrap64 (-a.bits)⟩

/-- `impl Mul for Fix64`: `(self.0 as i128 * rhs.0 as i128 >> 24) as i64`.
The `i128` product is exact; `>>` is an arithmetic shift (floor division
by `2^24`); the final cast wraps. -/
def mul (a b : Fix64) : Fix64 :=
  ⟨wrap64 (Int.fdiv (a.bits * b.bits) 16777216)⟩

/-- The underlying integer computation of `impl Div for Fix64`:
`(((self.0 as i128) << 24) / rhs.0 as i128) as i64`, with the `i128`
division truncating toward zero and the cast wrapping.  Rust evaluates
this only when the divisor is nonzero (otherwise the division panics). -/
def div_unchecked (a b : Fix64) : Fix64 :=
  ⟨wrap64 (Int.tdiv (a.bits * 16777216) b.bits)⟩

/-- `impl Div for Fix64`: the underlying `i128` division panics exactly
when the divisor's bits are zero; the panic is modelled as `none`. -/
def div (a b : Fix64) : Option Fix64 :=
  if b.bits = 0 then none else some (div_unchecked a b)

/-- `impl Rem for Fix64`: `self.0 % rhs.0` on `i64`.  Rust `%` panics on a
zero divisor and on the overflowing case `i64::MIN % -1`; both are
modelled as `none`.  Otherwise it is the `i64` remainder, which takes the
sign of the dividend. -/
def rem (a b : Fix64) : Option Fix64 :=
  if b.bits = 0 ∨ (a.bits = -9223372036854775808 ∧ b.bits = -1) then none
  else some ⟨Int.tmod a.bits b.bits⟩

/-- `Fix64::floor`: `self.0 >> FRAC_BITS` (arithmetic shift). -/
def floor (a : Fix64) : Int := Int.fdiv a.bits 16777216

/-- `Fix64::abs`: `self.0.abs()` (wraps on `i64::MIN` in release mode). -/
def abs (a : Fix64) : Fix64 := ⟨wrap64 |a.bits|⟩

/-- `Fix64::signum` -/
def signum (a : Fix64) : Int := Int.sign a.bits

/-- `Fix64::is_zero` -/
def is_zero (a : Fix64) : Bool := a.bits = 0

end Fix64

/-- `Vec3D<T>` from `src/vec.rs`. -/
structure Vec3D (α : Type) where
  x : α
  y : α
  z : α
deriving DecidableEq

namespace Vec3D

/-- `Vec3D::map` -/
def map {α β : Type} (v : Vec3D α) (f : α → β) : Vec3D β :=
  ⟨f v.x, f v.y, f v.z⟩

/-- `Vec3D::zip` -/
def zip {α β : Type} (v : Vec3D α) (r : Vec3D β) : Vec3D (α × β) :=
  ⟨(v.x, r.x), (v.y, r.y), (v.z, r.z)⟩

/-- `impl Sub for Vec3D` (field-wise), at scalar type `Int`. -/
def sub (a b : Vec3D Int) : Vec3D Int :=
  ⟨a.x - b.x, a.y - b.y, a.z - b.z⟩

/-- Component access in the `into_array` order `[x, y, z]` used by the
ray-traversal loop. -/
def get3 {α : Type} (v : Vec3D α) : Fin 3 → α
  | ⟨0, _⟩ => v.x
  | ⟨1, _⟩ => v.y
  | ⟨2, _⟩ => v.z

/-- Component update in the `into_array` order `[x, y, z]`. -/
def set3 {α : Type} (v : Vec3D α) : Fin 3 → α → Vec3D α
  | ⟨0, _⟩, a => ⟨a, v.y, v.z⟩
  | ⟨1, _⟩, a => ⟨v.x, a, v.z⟩
  | ⟨2, _⟩, a => ⟨v.x, v.y, a⟩

end Vec3D

/-- `PackedColor` payload from `src/screen.rs`: the `u8` value stored in
the `NonZeroU8`.  Nonzero-ness is a proved property (claim C9), not a
representation invariant here. -/
abbrev PackedColor := Nat

namespace PackedColor

/-- `PackedColor::R_STEPS` -/
def R_STEPS : Nat := 7

/-- `PackedColor::G_STEPS` -/
def G_STEPS : Nat := 9

/-- `PackedColor::B_STEPS` -/
def B_STEPS : Nat := 4

/-- `PackedColor::R_MAX` -/
def R_MAX : Nat := R_STEPS - 1

/-- `PackedColor::G_MAX` -/
def G_MAX : Nat := G_STEPS - 1

/-- `PackedColor::B_MAX` -/
def B_MAX : Nat := B_STEPS - 1

end PackedColor

/-- `RgbColor` from `src/screen.rs`: three `u8` channels. -/
structure RgbColor where
  r : Fin 256
  g : Fin 256
  b : Fin 256
deriving DecidableEq

namespace RgbColor

/-- `RgbColor::to_packed`: quantize each channel (`u32` arithmetic, all
intermediates far below `2^32`), mix in base (7, 9, 4) mixed radix, add 1,
and cast to `u8` (`% 256`).  Returns the byte payload of the
`NonZeroU8`. -/
def to_packed (c : RgbColor) : Nat :=
  (1 + ((c.r.val * PackedColor.R_MAX / 255 * PackedColor.G_STEPS
          + c.g.val * PackedColor.G_MAX / 255) * PackedColor.B_STEPS
          + c.b.val * PackedColor.B_MAX / 255)) % 256

/-- `RgbColor::from_packed`: invert the mixed-radix decomposition and
rescale each channel back to 0–255 (`as u8` casts are `% 256`).  The
source input is a `NonZeroU8`, so `v - 1` never underflows there. -/
def from_packed (v : Nat) : RgbColor :=
  let v1 := v - 1
  let b := v1 % PackedColor.B_STEPS
  let v2 := v1 / PackedColor.B_STEPS
  let g := v2 % PackedColor.G_STEPS
  let v3 := v2 / PackedColor.G_STEPS
  let r := v3 % PackedColor.R_STEPS
  ⟨⟨r * 255 / PackedColor.R_MAX % 256, by omega⟩,
   ⟨g * 255 / PackedColor.G_MAX % 256, by omega⟩,
   ⟨b * 255 / PackedColor.B_MAX % 256, by omega⟩⟩

end RgbColor

/-- The packed byte is always in `[1, 252]`: each quantized channel is
bounded by its channel maximum, so the mixed-radix value is at most 251
and the `as u8` cast never wraps. -/
theorem to_packed_range (c : RgbColor) :
    1 ≤ c.to_packed ∧ c.to_packed ≤ 252 := by
  have hr : c.r.val ≤ 255 := Nat.lt_succ_iff.mp c.r.isLt
  have hg : c.g.val ≤ 255 := Nat.lt_succ_iff.mp c.g.isLt
  have hb : c.b.val ≤ 255 := Nat.lt_succ_iff.mp c.b.isLt
  unfold RgbColor.to_packed PackedColor.R_MAX PackedColor.G_MAX
    PackedColor.B_MAX PackedColor.R_STEPS PackedColor.G_STEPS
    PackedColor.B_STEPS
  omega

/-- One RGB→packed→RGB round trip, the map the spec calls "lossy but
stable". -/
def pack_round_trip (c : RgbColor) : RgbColor :=
  RgbColor.from_packed (RgbColor.to_packed c)

set_option maxRecDepth 8000 in
/-- On the image of `from_packed` (all packed bytes 1–252), the eighth
round-trip iterate equals the seventh: the per-pass decay of the red and
green channels (whose dequantized values fall just below the previous
quantization threshold) has bottomed out by then. -/
theorem pack_round_trip_image_stable :
    ∀ p : Fin 252,
      pack_round_trip^[8] (RgbColor.from_packed (p.val + 1)) =
        pack_round_trip^[7] (RgbColor.from_packed (p.val + 1)) := by
  decide

/-- Claim C1, counterexample: packing then unpacking is NOT idempotent
after the first application.  For the color `(0, 32, 0)` the first round
trip gives `(0, 31, 0)` (green quantized to step 1 of 8, dequantized to
`1 * 255 / 8 = 31`), but `31 * 8 / 255 = 0`, so the second round trip
collapses the green channel to `(0, 0, 0)`. -/
theorem pack_round_trip_not_idempotent :
    RgbColor.from_packed (RgbColor.to_packed (RgbColor.from_packed
        (RgbColor.to_packed ⟨0, 32, 0⟩))) ≠
      RgbColor.from_packed (RgbColor.to_packed (⟨0, 32, 0⟩ : RgbColor)) := by
  decide

/-- Claim C1, amended: the RGB→packed→RGB round trip is not idempotent
after the first application, because dequantized red/green values can
fall one quantization step lower on the next pass; repeated application
reaches a fixed point after at most eight further passes, so the ninth
iterate equals the eighth for every color. -/
theorem pack_round_trip_eventually_stable (c : RgbColor) :
    pack_round_trip^[9] c = pack_round_trip^[8] c := by
  have h1 : 1 ≤ c.to_packed ∧ c.to_packed ≤ 252 := to_packed_range c
  have h2 := pack_round_trip_image_stable ⟨c.to_packed - 1, by omega⟩
  have h3 : c.to_packed - 1 + 1 = c.to_packed := by omega
  rw [h3] at h2
  calc pack_round_trip^[9] c
      = pack_round_trip^[8] (pack_round_trip c) :=
        Function.iterate_succ_apply pack_round_trip 8 c
    _ = pack_round_trip^[7] (pack_round_trip c) := h2
    _ = pack_round_trip^[8] c :=
        (Function.iterate_succ_apply pack_round_trip 7 c).symm

/-- Claim C9: `to_packed` never produces the zero byte.  The mixed-radix
value is at most 251, so `1 + retval` fits in a `u8` without wrapping and
is at least 1; the all-zero quantized color packs to 1, distinct from the
zero used as the "no color" sentinel at the `Block` level. -/
theorem to_packed_ne_zero (c : RgbColor) : RgbColor.to_packed c ≠ 0 := by
  have h := to_packed_range c
  omega

/-- Claim C3, counterexample: `Fix64` division by the representation of
zero is a runtime error (the underlying `i128` division panics), so the
operations do not all "raise no runtime error". -/
theorem fix64_div_zero_errors :
    Fix64.div (Fix64.from_int 1) (Fix64.from_bits 0) = none := by
  decide

/-- Claim C3, amended: `add`, `sub`, `mul` and negation are total (their
overflow wraps); `div` signals the underlying 64-bit integer division
error exactly when the divisor is the representation of zero, and `rem`
exactly when the divisor is zero or the operands are
`(i64::MIN, -1)` — the errors are delegated to the underlying integer
operations, never masked. -/
theorem fix64_div_rem_error_iff (a b : Fix64) :
    ((Fix64.div a b).isSome ↔ b.bits ≠ 0) ∧
      ((Fix64.rem a b).isSome ↔
        ¬(b.bits = 0 ∨ (a.bits = -9223372036854775808 ∧ b.bits = -1))) := by
  constructor
  · unfold Fix64.div
    rcases Decidable.em (b.bits = 0) with h | h <;> simp [h]
  · unfold Fix64.rem
    rcases Decidable.em (b.bits = 0 ∨
        (a.bits = -9223372036854775808 ∧ b.bits = -1)) with h | h <;>
      simp [h]

/-- `Block` from `src/world.rs`: an optional packed color byte; `None`
means empty/air. -/
structure Block where
  color : Option Nat
deriving DecidableEq

namespace Block

/-- `Block::is_empty` -/
def is_empty (b : Block) : Bool := b.color.isNone

/-- `Block::default` -/
def default : Block := ⟨none⟩

end Block

/-- `World` from `src/world.rs`: the fixed `SIZE³` array of blocks,
modelled as a lookup function on array indices `[z][y][x]` (meaningful
for indices below `SIZE`; `get_array` never reads outside them). -/
structure World where
  blocks : Nat → Nat → Nat → Block

namespace World

/-- `World::SIZE` -/
def SIZE : Nat := 50

/-- `World::ARRAY_AXIS_ORIGIN`: `SIZE as i64 / -2 = -25`. -/
def ARRAY_AXIS_ORIGIN : Int := -25

/-- `World::array_pos`: per component,
`pos.wrapping_sub(origin) as usize` — a wrapping `i64` subtraction
reinterpreted as `usize`, i.e. `(pos - origin) mod 2^64`. -/
def array_pos (pos : Vec3D Int) : Vec3D Nat :=
  (pos.zip ⟨ARRAY_AXIS_ORIGIN, ARRAY_AXIS_ORIGIN, ARRAY_AXIS_ORIGIN⟩).map
    (fun pa => toU64 (pa.1 - pa.2))

/-- `World::get_array`: `self.blocks.get(z)?.get(y)?.get(x)` — `None` as
soon as one index is out of the array bounds. -/
def get_array (w : World) (ap : Vec3D Nat) : Option Block :=
  if ap.z < SIZE then
    if ap.y < SIZE then
      if ap.x < SIZE then some (w.blocks ap.z ap.y ap.x) else none
    else none
  else none

/-- `World::get` -/
def get (w : World) (pos : Vec3D Int) : Option Block :=
  get_array w (array_pos pos)

end World

/-- A world whose every cell is the default (empty) block; used to
evaluate content-independent traversal facts and as a concrete instance
in counterexamples. -/
def empty_world : World := ⟨fun _ _ _ => Block.default⟩

/-- `RayCastDimension` from `src/world.rs`: per-axis traversal state of
the grid ray caster. -/
structure RayCastDimension where
  next_pos : Int
  next_t : Fix64
  t_step : Fix64
  pos_step : Int
deriving DecidableEq

namespace RayCastDimension

/-- `RayCastDimension::new`: `None` when the direction's signum is zero
(that axis never advances); otherwise the initial crossing state.  The
division `1 / dir` is reached only with `dir ≠ 0`. -/
def new (start dir : Fix64) : Option RayCastDimension :=
  let pos_step := dir.signum
  if pos_step = 0 then none
  else
    let inv_dir := Fix64.div_unchecked (Fix64.from_int 1) dir
    let next_pos := start.floor + pos_step
    let target :=
      if pos_step > 0 then Fix64.from_int next_pos
      else (Fix64.from_int next_pos).add (Fix64.from_int 1)
    some ⟨next_pos, (target.sub start).mul inv_dir, inv_dir.abs, pos_step⟩

/-- `RayCastDimension::step` -/
def step (c : RayCastDimension) : RayCastDimension :=
  ⟨c.next_pos + c.pos_step, c.next_t.add c.t_step, c.t_step, c.pos_step⟩

end RayCastDimension

/-- One accumulation step of the minimum-`next_t` scan in
`cast_ray_impl`: skip inactive axes, take the strict improvement. -/
def min_step (i : Fin 3) (c : Option RayCastDimension)
    (acc : Option (Fin 3) × Int) : Option (Fin 3) × Int :=
  match c with
  | none => acc
  | some c => if c.next_t.bits < acc.2 then (some i, c.next_t.bits) else acc

/-- The axis-selection scan of `cast_ray_impl`: fold over the axes in
enumeration order `x, y, z`, starting from
`min_t = Fix64::from_bits(i64::MAX)` and no index. -/
def min_axis (cs : Vec3D (Option RayCastDimension)) : Option (Fin 3) × Int :=
  min_step 2 cs.z (min_step 1 cs.y (min_step 0 cs.x
    (none, 9223372036854775807)))

/-- The loop state of `cast_ray_impl`: the current cell and the per-axis
ray casters. -/
structure RayState where
  pos : Vec3D Int
  casters : Vec3D (Option RayCastDimension)
deriving DecidableEq

/-- One advance of the traversal loop after the visit: pick the axis with
the minimal pending `next_t` (`None` means no axis can advance and the
loop breaks); move that axis's cell coordinate to its `next_pos` and step
its caster.  The inner `none` branch of the selected caster is
unreachable — the scan only selects active axes. -/
def ray_step (st : RayState) : Option RayState :=
  match (min_axis st.casters).1 with
  | none => none
  | some i =>
    match st.casters.get3 i with
    | none => none
    | some c =>
      some ⟨st.pos.set3 i c.next_pos, st.casters.set3 i (some c.step)⟩

/-- The entry state of `cast_ray_impl`: `pos = start.map(Fix64::floor)`,
one `RayCastDimension::new` per axis. -/
def init_state (start dir : Vec3D Fix64) : RayState :=
  ⟨start.map Fix64.floor,
   (start.zip dir).map (fun sd => RayCastDimension.new sd.1 sd.2)⟩

/-- `World::cast_ray_impl` with an explicit state-passing visitor
(`f s pos block = (s', continue?)`) and fuel.  The loop body: look up the
current cell (`None` ⇒ break), call the visitor (`false` ⇒ break),
advance the minimal axis (`None` ⇒ break).  `none` is returned only on
fuel exhaustion, which `cast_ray_terminates` rules out for the fuel used
below. -/
def cast_ray_aux {σ : Type} (w : World)
    (f : σ → Vec3D Int → Block → σ × Bool) :
    Nat → RayState → σ → Option σ
  | 0, _, _ => none
  | n + 1, st, s =>
    match World.get w st.pos with
    | none => some s
    | some blk =>
      match f s st.pos blk with
      | (s1, false) => some s1
      | (s1, true) =>
        match ray_step st with
        | none => some s1
        | some st1 => cast_ray_aux w f n st1 s1

/-- Fuel that `cast_ray_terminates` proves sufficient for every ray. -/
def RAY_FUEL : Nat := 200

/-- `World::cast_ray` -/
def cast_ray {σ : Type} (w : World) (start dir : Vec3D Fix64)
    (f : σ → Vec3D Int → Block → σ × Bool) (s : σ) : Option σ :=
  cast_ray_aux w f RAY_FUEL (init_state start dir) s

/-- The visit sequence of the traversal: the cells (with their blocks)
passed to the visitor by `cast_ray` when the visitor always continues,
in order. -/
def visit_aux (w : World) : Nat → RayState → Option (List (Vec3D Int × Block))
  | 0, _ => none
  | n + 1, st =>
    match World.get w st.pos with
    | none => some []
    | some blk =>
      match ray_step st with
      | none => some [(st.pos, blk)]
      | some st1 => (visit_aux w n st1).map (fun l => (st.pos, blk) :: l)

/-- The full visit sequence of a ray (cells with blocks). -/
def visits (w : World) (start dir : Vec3D Fix64) :
    List (Vec3D Int × Block) :=
  (visit_aux w RAY_FUEL (init_state start dir)).getD []

/-- The cells a ray visits, in order. -/
def visited_cells (w : World) (start dir : Vec3D Fix64) :
    List (Vec3D Int) :=
  (visits w start dir).map Prod.fst

/-- `World::get_hit_pos`: walk the ray recording the last empty cell in
the first component and stopping with the first non-empty cell in the
second. -/
def get_hit_pos (w : World) (start forward : Vec3D Fix64) :
    Option (Vec3D Int) × Option (Vec3D Int) :=
  (cast_ray w start forward
    (fun s pos blk =>
      if blk.is_empty then ((some pos, s.2), true) else ((s.1, some pos), false))
    (none, none)).getD (none, none)

/-- Folding a visitor over a visit sequence with early exit; used to
relate `cast_ray` with arbitrary visitors to the visit sequence. -/
def fold_break {σ : Type} (f : σ → Vec3D Int → Block → σ × Bool) :
    σ → List (Vec3D Int × Block) → σ
  | s, [] => s
  | s, (p, b) :: rest =>
    match f s p b with
    | (s1, false) => s1
    | (s1, true) => fold_break f s1 rest

/-- The set of positions `World::get` answers on: each wrapped array
index is below `SIZE`. -/
def in_grid (pos : Vec3D Int) : Prop :=
  (World.array_pos pos).x < World.SIZE ∧ (World.array_pos pos).y < World.SIZE
    ∧ (World.array_pos pos).z < World.SIZE

instance (pos : Vec3D Int) : Decidable (in_grid pos) := by
  unfold in_grid; infer_instance

/-- `World::get` succeeds exactly on `in_grid` positions, for every world
content. -/
theorem get_isSome_iff (w : World) (pos : Vec3D Int) :
    (World.get w pos).isSome ↔ in_grid pos := by
  unfold World.get World.get_array in_grid
  split_ifs <;> simp_all

/-- `World::get` returns `none` on the same positions for every pair of
worlds: the bounds test does not depend on the stored blocks. -/
theorem get_none_indep (w w' : World) (pos : Vec3D Int)
    (h : World.get w pos = none) : World.get w' pos = none := by
  rw [← Option.not_isSome_iff_eq_none, get_isSome_iff] at h ⊢
  exact h

/-- The cell sequence a ray visits does not depend on the stored blocks:
the loop breaks on the bounds test only. -/
theorem visit_aux_cells_indep (w w' : World) :
    ∀ (n : Nat) (st : RayState),
      (visit_aux w n st).map (List.map Prod.fst)
        = (visit_aux w' n st).map (List.map Prod.fst) := by
  intro n
  induction n with
  | zero => intro st; rfl
  | succ n ih =>
    intro st
    rcases hw : World.get w st.pos with _ | b1 <;>
      rcases hw2 : World.get w' st.pos with _ | b2
    · simp [visit_aux, hw, hw2]
    · exact absurd (get_none_indep w w' st.pos hw) (by simp [hw2])
    · exact absurd (get_none_indep w' w st.pos hw2) (by simp [hw])
    · rcases hs : ray_step st with _ | st1
      · simp [visit_aux, hw, hw2, hs]
      · simp only [visit_aux, hw, hw2, hs]
        have := ih st1
        rcases h1 : visit_aux w n st1 with _ | l1 <;>
          rcases h2 : visit_aux w' n st1 with _ | l2 <;>
            rw [h1, h2] at this <;> simp_all

/-- Claim C2, counterexample: the out-of-range position `(25, 0, 0)` is
looked up at wrapped array index 50 on the x axis, which fails the array
bounds test, so `World::get` returns `None` — not `Some` of a wrapped
cell. -/
theorem world_get_out_of_range_none :
    World.get empty_world ⟨25, 0, 0⟩ = none := by
  decide

/-- Claim C2, amended: for any `i64`-representable position, the
coordinate conversion wraps in the integer sense (modulo `2^64`, never a
panic), and `World::get` returns `Some` exactly when every coordinate
lies in the declared range `[-25, 24]`; every out-of-range lookup yields
`None`. -/
theorem world_get_isSome_iff_in_range (w : World) (pos : Vec3D Int)
    (hx1 : -9223372036854775808 ≤ pos.x) (hx2 : pos.x < 9223372036854775808)
    (hy1 : -9223372036854775808 ≤ pos.y) (hy2 : pos.y < 9223372036854775808)
    (hz1 : -9223372036854775808 ≤ pos.z) (hz2 : pos.z < 9223372036854775808) :
    (World.get w pos).isSome ↔
      (-25 ≤ pos.x ∧ pos.x ≤ 24 ∧ -25 ≤ pos.y ∧ pos.y ≤ 24 ∧
        -25 ≤ pos.z ∧ pos.z ≤ 24) := by
  rw [get_isSome_iff]
  unfold in_grid World.array_pos World.SIZE World.ARRAY_AXIS_ORIGIN
    Vec3D.zip Vec3D.map toU64
  dsimp only
  omega

/-- Claim C2, amended, witness: the origin is in range and its lookup
succeeds. -/
theorem world_get_isSome_iff_in_range_witness :
    ((World.get empty_world ⟨0, 0, 0⟩).isSome ↔
      (-25 ≤ (0 : Int) ∧ (0 : Int) ≤ 24 ∧ -25 ≤ (0 : Int) ∧ (0 : Int) ≤ 24 ∧
        -25 ≤ (0 : Int) ∧ (0 : Int) ≤ 24)) :=
  world_get_isSome_iff_in_range empty_world ⟨0, 0, 0⟩ (by norm_num)
    (by norm_num) (by norm_num) (by norm_num) (by norm_num) (by norm_num)

/-- Whether a cell difference is one of the six unit axis steps (the
`valid_steps` table of the source test). -/
def is_unit_step (d : Vec3D Int) : Bool :=
  d = (⟨1, 0, 0⟩ : Vec3D Int) ∨ d = (⟨-1, 0, 0⟩ : Vec3D Int) ∨
    d = (⟨0, 1, 0⟩ : Vec3D Int) ∨ d = (⟨0, -1, 0⟩ : Vec3D Int) ∨
    d = (⟨0, 0, 1⟩ : Vec3D Int) ∨ d = (⟨0, 0, -1⟩ : Vec3D Int)

/-- Every consecutive pair of cells in the list differs by exactly one
unit axis step. -/
def steps_ok : List (Vec3D Int) → Bool
  | a :: b :: rest => is_unit_step (Vec3D.sub b a) && steps_ok (b :: rest)
  | _ => true

/-- The start of the ray in `tests::test_ray_cast`: `(0, 0, 0)`. -/
def test_ray_start : Vec3D Fix64 := ⟨⟨0⟩, ⟨0⟩, ⟨0⟩⟩

/-- The direction of the first ray in `tests::test_ray_cast`:
`(-1/8, 0, 1)` as `Fix64` bit patterns. -/
def test_ray_dir : Vec3D Fix64 := ⟨⟨-2097152⟩, ⟨0⟩, ⟨16777216⟩⟩

/-- The reference trace asserted by `tests::test_ray_cast` for the ray
from `(0,0,0)` with direction `(-1/8, 0, 1)`. -/
def test_ray_cast_expected : List (Vec3D Int) :=
  [⟨0, 0, 0⟩, ⟨-1, 0, 0⟩, ⟨-1, 0, 1⟩, ⟨-1, 0, 2⟩, ⟨-1, 0, 3⟩, ⟨-1, 0, 4⟩,
   ⟨-1, 0, 5⟩, ⟨-1, 0, 6⟩, ⟨-1, 0, 7⟩, ⟨-2, 0, 7⟩, ⟨-2, 0, 8⟩, ⟨-2, 0, 9⟩,
   ⟨-2, 0, 10⟩, ⟨-2, 0, 11⟩, ⟨-2, 0, 12⟩, ⟨-2, 0, 13⟩, ⟨-2, 0, 14⟩,
   ⟨-2, 0, 15⟩, ⟨-3, 0, 15⟩, ⟨-3, 0, 16⟩, ⟨-3, 0, 17⟩, ⟨-3, 0, 18⟩,
   ⟨-3, 0, 19⟩]

/-- The visited cells of a ray are the same over any two worlds. -/
theorem visited_cells_indep (w : World) (s d : Vec3D Fix64) :
    visited_cells w s d = visited_cells empty_world s d := by
  unfold visited_cells visits
  have h := visit_aux_cells_indep w empty_world RAY_FUEL (init_state s d)
  rcases h1 : visit_aux w RAY_FUEL (init_state s d) with _ | l1 <;>
    rcases h2 : visit_aux empty_world RAY_FUEL (init_state s d) with _ | l2 <;>
      rw [h1, h2] at h <;> simp_all

/-- Claim C4: evaluating the ray of `tests::test_ray_cast` on the
embedded traversal (any world content; the visit sequence only depends on
the grid bounds).  With `SIZE = 50` the grid spans `[-25, 24]` per axis,
so the traversal continues past `(-3, 0, 19)` up to `(-4, 0, 24)` and
visits 29 cells; the 23-cell reference fixture (which matches a
`[-20, 19]` grid, i.e. `SIZE = 40`) is strictly shorter, so the source
test fails on the current code.  Consecutive visited cells do differ by
unit axis steps. -/
theorem cast_ray_test_trace (w : World) :
    visited_cells w test_ray_start test_ray_dir
        = test_ray_cast_expected ++
          [⟨-3, 0, 20⟩, ⟨-3, 0, 21⟩, ⟨-3, 0, 22⟩, ⟨-3, 0, 23⟩,
           ⟨-4, 0, 23⟩, ⟨-4, 0, 24⟩]
      ∧ steps_ok (visited_cells w test_ray_start test_ray_dir) = true
      ∧ visited_cells w test_ray_start test_ray_dir
          ≠ test_ray_cast_expected := by
  rw [visited_cells_indep w test_ray_start test_ray_dir]
  refine ⟨by decide, by decide, by decide⟩

/-- Per-component equality facts for `get3`/`set3`. -/
theorem get3_set3_same {α : Type} (v : Vec3D α) (i : Fin 3) (a : α) :
    (v.set3 i a).get3 i = a := by
  fin_cases i <;> rfl

/-- `set3` leaves the other components unchanged. -/
theorem get3_set3_ne {α : Type} (v : Vec3D α) (i j : Fin 3) (a : α)
    (h : i ≠ j) : (v.set3 i a).get3 j = v.get3 j := by
  fin_cases i <;> fin_cases j <;> first | rfl | exact absurd rfl h

/-- `Int.sign` takes only the values `0`, `1`, `-1`. -/
theorem sign_values (a : Int) :
    Int.sign a = 0 ∨ Int.sign a = 1 ∨ Int.sign a = -1 := by
  rcases a with n | n
  · rcases n with _ | n
    · exact Or.inl rfl
    · exact Or.inr (Or.inl rfl)
  · exact Or.inr (Or.inr rfl)

/-- Loop invariant of the traversal: every active axis steps by `±1` and
its `next_pos` is one step ahead of the current cell coordinate. -/
def caster_inv (st : RayState) : Prop :=
  ∀ (i : Fin 3) (c : RayCastDimension), st.casters.get3 i = some c →
    (c.pos_step = 1 ∨ c.pos_step = -1) ∧
      c.next_pos = st.pos.get3 i + c.pos_step

/-- Inversion of a successful `ray_step`: some active axis `i` was
selected, its coordinate becomes that caster's `next_pos`, and the caster
is stepped. -/
theorem ray_step_inv (st st' : RayState) (h : ray_step st = some st') :
    ∃ (i : Fin 3) (c : RayCastDimension), st.casters.get3 i = some c ∧
      st' = ⟨st.pos.set3 i c.next_pos, st.casters.set3 i (some c.step)⟩ := by
  unfold ray_step at h
  split at h
  · exact absurd h (by simp)
  · rename_i i hm
    split at h
    · exact absurd h (by simp)
    · rename_i c hc
      cases Option.some_inj.mp h
      exact ⟨i, c, hc, rfl⟩

/-- A nonzero sign is `1` or `-1`. -/
theorem int_sign_ne_zero (a : Int) (h : ¬ Int.sign a = 0) :
    Int.sign a = 1 ∨ Int.sign a = -1 := by
  rcases sign_values a with h0 | h0 | h0
  · exact absurd h0 h
  · exact Or.inl h0
  · exact Or.inr h0

/-- The invariant holds at the entry state: each fresh caster has
`pos_step = signum(dir) ≠ 0` and `next_pos = floor(start) + pos_step`. -/
theorem caster_inv_init (start dir : Vec3D Fix64) :
    caster_inv (init_state start dir) := by
  intro i c h
  fin_cases i <;>
    · simp only [init_state, Vec3D.map, Vec3D.zip, Vec3D.get3] at h ⊢
      rw [RayCastDimension.new] at h
      simp only [Fix64.signum] at h
      split_ifs at h with hs hpos <;>
        · cases Option.some_inj.mp h
          exact ⟨int_sign_ne_zero _ hs, rfl⟩

/-- Remaining advances axis `p` can make (given its step direction)
before its wrapped array index leaves the grid. -/
def axis_fuel (p : Int) (c : Option RayCastDimension) : Nat :=
  match c with
  | none => 0
  | some c =>
    if c.pos_step = 1 then 50 - toU64 (p - World.ARRAY_AXIS_ORIGIN)
    else toU64 (p - World.ARRAY_AXIS_ORIGIN) + 1

/-- Termination measure of the traversal loop: out of the grid one more
visit breaks; inside, the active axes can advance only boundedly often
before some coordinate leaves the grid. -/
def state_fuel (st : RayState) : Nat :=
  if in_grid st.pos then
    2 + axis_fuel st.pos.x st.casters.x + axis_fuel st.pos.y st.casters.y
      + axis_fuel st.pos.z st.casters.z
  else 1

/-- The measure never exceeds the fuel `cast_ray` runs with. -/
theorem state_fuel_le (st : RayState) : state_fuel st ≤ RAY_FUEL := by
  have hx : ∀ (p : Int) (c : Option RayCastDimension),
      toU64 (p - World.ARRAY_AXIS_ORIGIN) < 50 → axis_fuel p c ≤ 51 := by
    intro p c h
    rcases c with _ | c
    · simp [axis_fuel]
    · simp only [axis_fuel]
      split_ifs <;> omega
  unfold state_fuel RAY_FUEL
  split_ifs with hg
  · obtain ⟨h1, h2, h3⟩ := hg
    have := hx st.pos.x st.casters.x h1
    have := hx st.pos.y st.casters.y h2
    have := hx st.pos.z st.casters.z h3
    omega
  · omega

/-- The measure is positive. -/
theorem state_fuel_pos (st : RayState) : 1 ≤ state_fuel st := by
  unfold state_fuel
  split_ifs <;> omega

/-- A step taken from an in-grid cell strictly decreases the measure:
the advanced axis either stays in the grid with one fewer remaining
advance, or leaves the grid, dropping the measure to 1. -/
theorem state_fuel_step (st st' : RayState) (hinv : caster_inv st)
    (hg : in_grid st.pos) (h : ray_step st = some st') :
    state_fuel st' < state_fuel st := by
  obtain ⟨i, c, hc, rfl⟩ := ray_step_inv st st' h
  obtain ⟨hstep, hnext⟩ := hinv i c hc
  obtain ⟨hgx, hgy, hgz⟩ := hg
  rcases st with ⟨⟨px, py, pz⟩, ⟨cx, cy, cz⟩⟩
  simp only [World.array_pos, Vec3D.zip, Vec3D.map, toU64, World.SIZE,
    World.ARRAY_AXIS_ORIGIN] at hgx hgy hgz
  fin_cases i <;>
    · simp only [Vec3D.get3] at hc hnext
      simp only [Vec3D.get3, Vec3D.set3, state_fuel, in_grid, hc, axis_fuel,
        World.array_pos, Vec3D.zip, Vec3D.map, toU64, World.SIZE,
        World.ARRAY_AXIS_ORIGIN, RayCastDimension.step]
      rw [hnext]
      rcases hstep with h1 | h1 <;> rw [h1] <;> split_ifs <;>
        first | omega | exact ‹False›.elim

/-- The loop invariant is preserved by `ray_step`. -/
theorem caster_inv_step (st st' : RayState) (hinv : caster_inv st)
    (h : ray_step st = some st') : caster_inv st' := by
  obtain ⟨i, c, hc, rfl⟩ := ray_step_inv st st' h
  intro j cj hj
  rcases Decidable.em (i = j) with rfl | hne
  · rw [get3_set3_same] at hj
    cases Option.some_inj.mp hj
    obtain ⟨hs, hn⟩ := hinv i c hc
    refine ⟨by simpa [RayCastDimension.step] using hs, ?_⟩
    rw [get3_set3_same]
    simp [RayCastDimension.step]
  · rw [get3_set3_ne _ _ _ _ hne] at hj
    obtain ⟨hs, hn⟩ := hinv j cj hj
    exact ⟨hs, by rw [get3_set3_ne _ _ _ _ hne]; exact hn⟩

/-- With fuel at least the measure, the visit sequence is computed in
full (the loop reaches one of its breaks). -/
theorem visit_aux_isSome (w : World) :
    ∀ (n : Nat) (st : RayState), caster_inv st → state_fuel st ≤ n →
      (visit_aux w n st).isSome := by
  intro n
  induction n with
  | zero =>
    intro st hinv hf
    exact absurd hf (by have := state_fuel_pos st; omega)
  | succ n ih =>
    intro st hinv hf
    rcases hw : World.get w st.pos with _ | blk
    · simp [visit_aux, hw]
    · rcases hs : ray_step st with _ | st1
      · simp [visit_aux, hw, hs]
      · have hg : in_grid st.pos := (get_isSome_iff w st.pos).mp (by rw [hw]; rfl)
        have h1 := state_fuel_step st st1 hinv hg hs
        have h2 := caster_inv_step st st1 hinv hs
        have h3 := ih st1 h2 (by omega)
        simp only [visit_aux, hw, hs]
        simpa using h3

/-- `cast_ray_aux` with an arbitrary visitor equals the early-exit fold
of that visitor over the visit sequence: the loop's cell/caster
evolution does not depend on the visitor, which only decides how much of
the sequence is consumed. -/
theorem cast_ray_aux_eq_fold {σ : Type} (w : World)
    (f : σ → Vec3D Int → Block → σ × Bool) :
    ∀ (n : Nat) (st : RayState) (s : σ) (L : List (Vec3D Int × Block)),
      visit_aux w n st = some L →
      cast_ray_aux w f n st s = some (fold_break f s L) := by
  intro n
  induction n with
  | zero => intro st s L h; exact absurd h (by simp [visit_aux])
  | succ n ih =>
    intro st s L h
    simp only [visit_aux] at h
    rcases hw : World.get w st.pos with _ | blk <;> rw [hw] at h <;>
      dsimp only at h
    · cases Option.some_inj.mp h
      simp [cast_ray_aux, hw, fold_break]
    · rcases hs : ray_step st with _ | st1 <;> rw [hs] at h <;>
        dsimp only at h
      · cases Option.some_inj.mp h
        simp only [cast_ray_aux, hw, hs]
        rcases hf : f s st.pos blk with ⟨s1, b⟩
        rcases b <;> simp [fold_break, hf]
      · rcases hv : visit_aux w n st1 with _ | L1 <;> rw [hv] at h <;>
          simp only [Option.map_some', Option.map_none'] at h
        · exact absurd h (by simp)
        · cases Option.some_inj.mp h
          simp only [cast_ray_aux, hw, hs]
          rcases hf : f s st.pos blk with ⟨s1, b⟩
          rcases b
          · simp [fold_break, hf]
          · simp only [fold_break, hf]
            exact ih st1 s1 L1 hv

/-- Claim C8: `cast_ray` terminates for every start position, direction,
world and visitor — with fuel `RAY_FUEL` the traversal always reaches a
break (visitor break, no advancing axis, or leaving the finite grid), so
the fuelled loop never runs out. -/
theorem cast_ray_terminates (w : World) (σ : Type)
    (f : σ → Vec3D Int → Block → σ × Bool) (s : σ)
    (start dir : Vec3D Fix64) : (cast_ray w start dir f s).isSome := by
  have hv := visit_aux_isSome w RAY_FUEL (init_state start dir)
    (caster_inv_init start dir) (state_fuel_le _)
  obtain ⟨L, hL⟩ := Option.isSome_iff_exists.mp hv
  rw [cast_ray, cast_ray_aux_eq_fold w f RAY_FUEL (init_state start dir) s L hL]
  rfl

/-- Claim C5: whenever the traversal advances an axis, that axis is an
active (still-advancing) one whose pending `next_t` is minimal among all
active axes, and among active axes with the same minimal `next_t` it is
the first in enumeration order (x before y before z): the scan only
replaces the candidate on a strict improvement. -/
theorem min_axis_spec (cs : Vec3D (Option RayCastDimension)) (i : Fin 3)
    (h : (min_axis cs).1 = some i) :
    ∃ c, cs.get3 i = some c ∧
      ∀ (j : Fin 3) (cj : RayCastDimension), cs.get3 j = some cj →
        c.next_t.bits ≤ cj.next_t.bits ∧
        (cj.next_t.bits = c.next_t.bits → i ≤ j) := by
  rcases cs with ⟨cx, cy, cz⟩
  rcases cx with _ | c0 <;> rcases cy with _ | c1 <;> rcases cz with _ | c2 <;>
    simp only [min_axis, min_step] at h <;>
    first
      | exact Option.noConfusion h
      | (split_ifs at h with h1 h2 h3 <;>
          try dsimp only at * <;>
          first
            | exact Option.noConfusion h
            | (cases Option.some_inj.mp h
               refine ⟨_, rfl, ?_⟩
               intro j cj hj
               fin_cases j <;> simp only [Vec3D.get3] at hj <;>
                 first
                   | exact Option.noConfusion hj
                   | (cases Option.some_inj.mp hj
                      refine ⟨by omega, fun heq => ?_⟩
                      first | decide | omega)))

/-- Claim C5, witness: with the x and z axes active at the same pending
`next_t`, the scan selects the x axis. -/
theorem min_axis_spec_witness :
    ∃ c, (⟨some ⟨5, ⟨10⟩, ⟨1⟩, 1⟩, none, some ⟨3, ⟨10⟩, ⟨2⟩, 1⟩⟩ :
        Vec3D (Option RayCastDimension)).get3 0 = some c ∧
      ∀ (j : Fin 3) (cj : RayCastDimension),
        (⟨some ⟨5, ⟨10⟩, ⟨1⟩, 1⟩, none, some ⟨3, ⟨10⟩, ⟨2⟩, 1⟩⟩ :
          Vec3D (Option RayCastDimension)).get3 j = some cj →
          c.next_t.bits ≤ cj.next_t.bits ∧
          (cj.next_t.bits = c.next_t.bits → 0 ≤ j) :=
  min_axis_spec ⟨some ⟨5, ⟨10⟩, ⟨1⟩, 1⟩, none, some ⟨3, ⟨10⟩, ⟨2⟩, 1⟩⟩ 0
    (by decide)

/-- The last empty cell of the leading empty prefix of a visit sequence
(the value `get_hit_pos` leaves in `prev_pos`): `none` when the sequence
starts with a non-empty cell or is exhausted without any cell. -/
def prev_pos_spec : List (Vec3D Int × Block) → Option (Vec3D Int)
  | [] => none
  | (p, b) :: rest =>
    if b.is_empty then
      match prev_pos_spec rest with
      | some q => some q
      | none => some p
    else none

/-- The first non-empty cell of a visit sequence (the value
`get_hit_pos` leaves in `hit_pos`). -/
def hit_pos_spec (L : List (Vec3D Int × Block)) : Option (Vec3D Int) :=
  (L.find? (fun pb => !pb.2.is_empty)).map Prod.fst

/-- Folding the `get_hit_pos` visitor over a visit sequence computes the
last empty cell of the empty prefix (falling back to the accumulated
previous position) and the first non-empty cell. -/
theorem fold_break_hit :
    ∀ (L : List (Vec3D Int × Block)) (prev : Option (Vec3D Int)),
      fold_break
        (fun s pos blk =>
          if blk.is_empty then ((some pos, s.2), true)
          else ((s.1, some pos), false))
        (prev, none) L
        = ((match prev_pos_spec L with
            | some q => some q
            | none => prev), hit_pos_spec L) := by
  intro L
  induction L with
  | nil => intro prev; rfl
  | cons pb rest ih =>
    intro prev
    rcases pb with ⟨p, b⟩
    rcases hb : b.is_empty with _ | _
    · simp [fold_break, prev_pos_spec, hit_pos_spec, hb, List.find?]
    · simp only [fold_break, prev_pos_spec, hit_pos_spec, hb, List.find?,
        if_true, Bool.not_true, Bool.false_eq_true, if_false]
      rw [ih (some p)]
      rcases prev_pos_spec rest <;> simp [hit_pos_spec]

/-- The traversal actually computes its full visit sequence. -/
theorem visits_eq (w : World) (start dir : Vec3D Fix64) :
    visit_aux w RAY_FUEL (init_state start dir) = some (visits w start dir) := by
  obtain ⟨L, hL⟩ := Option.isSome_iff_exists.mp
    (visit_aux_isSome w RAY_FUEL (init_state start dir)
      (caster_inv_init start dir) (state_fuel_le _))
  unfold visits
  rw [hL]
  rfl

/-- Claim C7, amended: `get_hit_pos` returns exactly the last empty cell
of the leading empty prefix of the visit sequence (its `None` case is
"no empty cell was visited first", not "no hit found") and the first
non-empty visited cell. -/
theorem get_hit_pos_spec (w : World) (start forward : Vec3D Fix64) :
    get_hit_pos w start forward
      = (prev_pos_spec (visits w start forward),
         hit_pos_spec (visits w start forward)) := by
  unfold get_hit_pos cast_ray
  rw [cast_ray_aux_eq_fold w _ RAY_FUEL (init_state start forward) _
      (visits w start forward) (visits_eq w start forward)]
  simp only [Option.getD_some]
  rw [fold_break_hit (visits w start forward) none]
  rcases prev_pos_spec (visits w start forward) <;> rfl

/-- The claim's reading of `get_hit_pos`: the hit is the first non-empty
visited cell, and when the ray exits the grid without passing through a
non-empty cell, both results are `None`. -/
def claim_get_hit_pos : Prop :=
  ∀ (w : World) (start forward : Vec3D Fix64),
    (get_hit_pos w start forward).2 = hit_pos_spec (visits w start forward) ∧
    (hit_pos_spec (visits w start forward) = none →
      get_hit_pos w start forward = (none, none))

/-- Claim C7, counterexample: over the all-empty world, the ray from the
origin along `+z` exits the grid with no hit, yet `get_hit_pos` returns
`(Some (0,0,24), None)` — the previous position keeps the last empty
cell instead of being `None`. -/
theorem get_hit_pos_claim_false : ¬ claim_get_hit_pos := by
  intro hcl
  have h2 := (hcl empty_world test_ray_start ⟨⟨0⟩, ⟨0⟩, ⟨16777216⟩⟩).2
  have h3 : hit_pos_spec
      (visits empty_world test_ray_start ⟨⟨0⟩, ⟨0⟩, ⟨16777216⟩⟩) = none := by
    decide
  exact absurd (h2 h3) (by decide)

/-- A nonempty visit sequence starts at the state's current cell. -/
theorem visit_aux_head (w : World) (n : Nat) (st : RayState)
    (L : List (Vec3D Int × Block)) (h : visit_aux w n st = some L) :
    L = [] ∨ ∃ b rest, L = (st.pos, b) :: rest := by
  cases n with
  | zero => exact absurd h (by simp [visit_aux])
  | succ n =>
    simp only [visit_aux] at h
    rcases hw : World.get w st.pos with _ | blk <;> rw [hw] at h <;>
      dsimp only at h
    · exact Or.inl (Option.some_inj.mp h).symm
    · rcases hs : ray_step st with _ | st1 <;> rw [hs] at h <;>
        dsimp only at h
      · exact Or.inr ⟨blk, [], (Option.some_inj.mp h).symm⟩
      · rcases hv : visit_aux w n st1 with _ | L1 <;> rw [hv] at h <;>
          simp only [Option.map_some', Option.map_none'] at h
        · exact Option.noConfusion h
        · exact Or.inr ⟨blk, L1, (Option.some_inj.mp h).symm⟩

/-- One `ray_step` moves the current cell by exactly one unit axis
step. -/
theorem ray_step_unit (st st1 : RayState) (hinv : caster_inv st)
    (h : ray_step st = some st1) :
    is_unit_step (Vec3D.sub st1.pos st.pos) = true := by
  obtain ⟨i, c, hc, rfl⟩ := ray_step_inv st st1 h
  obtain ⟨hs, hn⟩ := hinv i c hc
  rcases st with ⟨⟨px, py, pz⟩, cs⟩
  fin_cases i <;>
    · simp only [Vec3D.get3] at hn
      simp only [Vec3D.set3, Vec3D.sub, is_unit_step, hn, Vec3D.mk.injEq,
        decide_eq_true_eq]
      rcases hs with h1 | h1 <;> rw [h1] <;> omega

/-- Every visit sequence is a chain of unit axis steps. -/
theorem visit_aux_steps (w : World) :
    ∀ (n : Nat) (st : RayState) (L : List (Vec3D Int × Block)),
      caster_inv st → visit_aux w n st = some L →
      steps_ok (L.map Prod.fst) = true := by
  intro n
  induction n with
  | zero => intro st L hinv h; exact absurd h (by simp [visit_aux])
  | succ n ih =>
    intro st L hinv h
    simp only [visit_aux] at h
    rcases hw : World.get w st.pos with _ | blk <;> rw [hw] at h <;>
      dsimp only at h
    · cases Option.some_inj.mp h; rfl
    · rcases hs : ray_step st with _ | st1 <;> rw [hs] at h <;>
        dsimp only at h
      · cases Option.some_inj.mp h; rfl
      · rcases hv : visit_aux w n st1 with _ | L1 <;> rw [hv] at h <;>
          simp only [Option.map_some', Option.map_none'] at h
        · exact Option.noConfusion h
        · cases Option.some_inj.mp h
          have hchain := ih st1 L1 (caster_inv_step st st1 hinv hs) hv
          rcases visit_aux_head w n st1 L1 hv with rfl | ⟨b1, rest1, rfl⟩
          · rfl
          · have hu := ray_step_unit st st1 hinv hs
            simp only [List.map, steps_ok, Bool.and_eq_true]
            exact ⟨hu, hchain⟩

/-- Every pair recorded in a visit sequence is a real lookup: the block
stored with a cell is what `World::get` returns there. -/
theorem visit_aux_blocks (w : World) :
    ∀ (n : Nat) (st : RayState) (L : List (Vec3D Int × Block)),
      visit_aux w n st = some L →
      ∀ pb ∈ L, World.get w pb.1 = some pb.2 := by
  intro n
  induction n with
  | zero => intro st L h; exact absurd h (by simp [visit_aux])
  | succ n ih =>
    intro st L h
    simp only [visit_aux] at h
    rcases hw : World.get w st.pos with _ | blk <;> rw [hw] at h <;>
      dsimp only at h
    · cases Option.some_inj.mp h
      intro pb hpb
      exact absurd hpb (by simp)
    · rcases hs : ray_step st with _ | st1 <;> rw [hs] at h <;>
        dsimp only at h
      · cases Option.some_inj.mp h
        intro pb hpb
        obtain rfl := List.mem_singleton.mp hpb
        exact hw
      · rcases hv : visit_aux w n st1 with _ | L1 <;> rw [hv] at h <;>
          simp only [Option.map_some', Option.map_none'] at h
        · exact Option.noConfusion h
        · cases Option.some_inj.mp h
          intro pb hpb
          rcases List.mem_cons.mp hpb with rfl | hmem
          · exact hw
          · exact ih st1 L1 hv pb hmem

/-- In a unit-step visit sequence, the last cell of the empty prefix and
the first non-empty cell are an empty/non-empty pair of consecutive,
hence face-adjacent, cells. -/
theorem prev_hit_adjacent :
    ∀ (L : List (Vec3D Int × Block)) (p h : Vec3D Int),
      steps_ok (L.map Prod.fst) = true →
      prev_pos_spec L = some p → hit_pos_spec L = some h →
      (∃ bp, (p, bp) ∈ L ∧ bp.is_empty = true) ∧
      (∃ bh, (h, bh) ∈ L ∧ bh.is_empty = false) ∧
      is_unit_step (Vec3D.sub h p) = true := by
  intro L
  induction L with
  | nil => intro p h _ hp _; exact Option.noConfusion hp
  | cons qb rest ih =>
    intro p h hchain hp hh
    rcases qb with ⟨q, b⟩
    rcases hb : b.is_empty with _ | _
    · simp [prev_pos_spec, hb] at hp
    · simp only [prev_pos_spec, hb, if_true] at hp
      simp only [hit_pos_spec, List.find?, hb, Bool.not_true] at hh
      rcases hr : prev_pos_spec rest with _ | q1 <;> rw [hr] at hp <;>
        dsimp only at hp
      · cases Option.some_inj.mp hp
        rcases rest with _ | ⟨⟨q2, b2⟩, rest2⟩
        · exact Option.noConfusion hh
        · rcases hb2 : b2.is_empty with _ | _
          · simp only [List.find?, hb2, Bool.not_false, Option.map_some'] at hh
            cases Option.some_inj.mp hh
            refine ⟨⟨b, List.mem_cons_self _ _, hb⟩,
              ⟨b2, List.mem_cons_of_mem _ (List.mem_cons_self _ _), hb2⟩, ?_⟩
            simp only [List.map, steps_ok, Bool.and_eq_true] at hchain
            exact hchain.1
          · exfalso
            simp only [prev_pos_spec, hb2, if_true] at hr
            rcases hpr : prev_pos_spec rest2 with _ | qq <;> rw [hpr] at hr <;>
              exact Option.noConfusion hr
      · cases Option.some_inj.mp hp
        have hchain2 : steps_ok (rest.map Prod.fst) = true := by
          rcases rest with _ | ⟨rb, rest2⟩
          · rfl
          · simp only [List.map, steps_ok, Bool.and_eq_true] at hchain
            exact hchain.2
        obtain ⟨⟨bp, hbp, hbpe⟩, ⟨bh, hbh, hbhe⟩, hadj⟩ :=
          ih p h hchain2 hr hh
        exact ⟨⟨bp, List.mem_cons_of_mem _ hbp, hbpe⟩,
          ⟨bh, List.mem_cons_of_mem _ hbh, hbhe⟩, hadj⟩

/-- Claim C10: consecutive cells passed to the `cast_ray` visitor differ
in exactly one coordinate by exactly `±1`; and whenever `get_hit_pos`
returns `Some` for both positions, the previous position holds an empty
block, the hit position a non-empty block, and the two cells are
face-adjacent. -/
theorem cast_ray_adjacency (w : World) (start forward : Vec3D Fix64) :
    steps_ok (visited_cells w start forward) = true ∧
    ∀ (p h : Vec3D Int), get_hit_pos w start forward = (some p, some h) →
      (∃ bp, World.get w p = some bp ∧ bp.is_empty = true) ∧
      (∃ bh, World.get w h = some bh ∧ bh.is_empty = false) ∧
      is_unit_step (Vec3D.sub h p) = true := by
  have hsteps := visit_aux_steps w RAY_FUEL (init_state start forward)
    (visits w start forward) (caster_inv_init start forward)
    (visits_eq w start forward)
  constructor
  · exact hsteps
  · intro p h hph
    rw [get_hit_pos_spec] at hph
    have h1 := congrArg Prod.fst hph
    have h2 := congrArg Prod.snd hph
    dsimp only at h1 h2
    obtain ⟨⟨bp, hbp, hbpe⟩, ⟨bh, hbh, hbhe⟩, hadj⟩ :=
      prev_hit_adjacent (visits w start forward) p h hsteps h1 h2
    have hblocks := visit_aux_blocks w RAY_FUEL (init_state start forward)
      (visits w start forward) (visits_eq w start forward)
    exact ⟨⟨bp, hblocks (p, bp) hbp, hbpe⟩,
      ⟨bh, hblocks (h, bh) hbh, hbhe⟩, hadj⟩

/-- A world with a single non-empty block at world position `(0, 0, 5)`
(array indices `[30][25][25]`). -/
def one_block_world : World :=
  ⟨fun z y x => if z = 30 ∧ y = 25 ∧ x = 25 then ⟨some 1⟩ else ⟨none⟩⟩

/-- Claim C10, witness: over `one_block_world`, the ray from the origin
along `+z` hits `(0,0,5)` with previous cell `(0,0,4)`: empty,
non-empty, and face-adjacent. -/
theorem cast_ray_adjacency_witness :
    (∃ bp, World.get one_block_world ⟨0, 0, 4⟩ = some bp ∧
      bp.is_empty = true) ∧
    (∃ bh, World.get one_block_world ⟨0, 0, 5⟩ = some bh ∧
      bh.is_empty = false) ∧
    is_unit_step (Vec3D.sub ⟨0, 0, 5⟩ ⟨0, 0, 4⟩) = true :=
  (cast_ray_adjacency one_block_world test_ray_start
      ⟨⟨0⟩, ⟨0⟩, ⟨16777216⟩⟩).2 ⟨0, 0, 4⟩ ⟨0, 0, 5⟩ (by decide)
